import Mathlib

/-!
Verification model of `src/Packages/Interval_skip_list/include/CGAL/Interval_skip_list.h`,
the interval skip list of the repository (Hanson / Johnson style).

The C++ code is a class template over an `Interval` type.  Following the
specification's test instantiation ("V = integers, closed intervals"),
the model instantiates the template at closed intervals over `Int`:
`contains` and `contains_interval` below are the closed-interval policy
demanded by the documented contract
`contains_interval(a,b) ⇔ every point of [a,b] is contained`.

Pointer structure is embedded as follows.

* A skip-list node (`IntervalSLnode`) becomes `MNode`; the level-0 chain
  hanging off the header becomes the list `ISL.nodes` in chain order, and
  a node is referenced by its position in that list (`NodeRef.idx`) or as
  the header (`NodeRef.header`).  The per-level forward pointer
  `n->forward[i]` is recovered as "next node in the chain whose
  `topLevel` is at least `i`" (`fwd` below): the C++ code splices a node
  into, and out of, every level `0..topLevel` at the same chain position
  in one operation, so the per-level chains are always exactly the
  subsequences of the level-0 chain selected by `topLevel ≥ i`.
* A marker list (`IntervalList`) is a `List Nat` of interval handles in
  C++ list order (list header first); `IntervalList::insert` prepends.
* `Interval_handle = Interval*` becomes a `Nat` slot id of the container.
* While-loops whose termination depends on the state get explicit fuel
  and return `Option`; `none` models the executions in which the C++
  code dereferences a null pointer, walks off the end of the list, or
  fails the `assert(*res == I)` in `removeMarkers` — all fatal.
* The header's `key` field is never initialised in C++ (reading it is
  junk); the model reads the fixed junk value `0` in those places.
-/

namespace ISkip

/-- Closed interval over `Int`, the specification's test instantiation of
the `Interval` template parameter (`inf() <= sup()` holders; the model does
not force that, as the C++ type system does not either). -/
structure Iv where
  inf : Int
  sup : Int
deriving DecidableEq, Repr

/-- `Interval::contains` for closed intervals. -/
def Iv.contains (I : Iv) (v : Int) : Bool :=
  decide (I.inf ≤ v) && decide (v ≤ I.sup)

/-- `Interval::contains_interval(a,b)`: every point of `[a,b]` is in `I`. -/
def Iv.containsI (I : Iv) (a b : Int) : Bool :=
  decide (I.inf ≤ a) && decide (b ≤ I.sup)

/-- Modelled from the spec: the element store `DS_Container`
(`CGAL/DS_Container.h`, not part of the sources under verification).
Per §4.A of the specification it hands out stable handles
(`allocate() -> handle` "returns a handle to an uninitialized slot",
`release(handle)` "returns the slot to the free pool",
`size()` "number of live allocations").  The model keeps
`mem`: the last value written to every slot ever allocated (a released
slot keeps its bytes until someone re-allocates and overwrites it, which
is how reads through stale handles behave), `free`: the free pool (LIFO,
re-used by `allocate` first, kept duplicate-free), and `next`: the next
never-used slot id. -/
structure Container where
  mem  : List (Nat × Iv)
  free : List Nat
  next : Nat
deriving DecidableEq, Repr

/-- `DS_Container::get_new_element`: pop the free pool, else a fresh slot. -/
def Container.getNew (c : Container) : Container × Nat :=
  match c.free with
  | f :: fs => ({ c with free := fs }, f)
  | [] => ({ c with next := c.next + 1 }, c.next)

/-- Write `*handle = I`. -/
def Container.setVal (c : Container) (id : Nat) (I : Iv) : Container :=
  { c with mem := (id, I) :: c.mem.filter (fun p => p.1 ≠ id) }

/-- `DS_Container::release_element`. -/
def Container.release (c : Container) (id : Nat) : Container :=
  if c.free.contains id then c else { c with free := id :: c.free }

/-- Slot ids currently live (allocated and not released). -/
def Container.liveIds (c : Container) : List Nat :=
  (List.range c.next).filter (fun id => ¬ c.free.contains id)

/-- `DS_Container::size`: number of live allocations. -/
def Container.size (c : Container) : Nat :=
  c.liveIds.length

/-- Read the bytes of a slot (also through a released handle: stale read). -/
def Container.deref (c : Container) (id : Nat) : Iv :=
  match c.mem.lookup id with
  | some v => v
  | none => ⟨0, 0⟩

def Container.empty : Container := ⟨[], [], 0⟩

/-- `IntervalSLnode`: key, `topLevel`, `ownerCount`, the marker list of
each outgoing edge (`markers[0..topLevel]`) and the node's `eqMarkers`. -/
structure MNode where
  key : Int
  topLevel : Nat
  ownerCount : Int
  markers : List (List Nat)
  eqMarkers : List Nat
deriving DecidableEq, Repr

/-- Fresh key node: `IntervalSLnode(searchKey, levels)`. -/
def MNode.mk0 (k : Int) (levels : Nat) : MNode :=
  ⟨k, levels, 0, List.replicate (levels + 1) [], []⟩

/-- `MAX_FORWARD = 48`. -/
def MAX_FORWARD : Nat := 48

/-- The interval skip list state: the key nodes in level-0 chain order,
`maxLevel`, the header's marker lists and `eqMarkers` (the header node is
built with `topLevel = MAX_FORWARD`, hence 49 lists), and the element
store holding the stored intervals. -/
structure ISL where
  nodes : List MNode
  maxLevel : Nat
  hdrMarkers : List (List Nat)
  hdrEq : List Nat
  cont : Container
deriving DecidableEq, Repr

def ISL.empty : ISL :=
  ⟨[], 0, List.replicate (MAX_FORWARD + 1) [], [], Container.empty⟩

/-- A node pointer: the header or a chain position. -/
inductive NodeRef where
  | header : NodeRef
  | idx : Nat → NodeRef
deriving DecidableEq, Repr

def NodeRef.isHeader : NodeRef → Bool
  | .header => true
  | .idx _ => false

/-- Replace the element at a position (no-op out of range). -/
def modAt (l : List α) (n : Nat) (f : α → α) : List α :=
  match l, n with
  | [], _ => []
  | a :: as, 0 => f a :: as
  | a :: as, n+1 => a :: modAt as n f

def ISL.node? (s : ISL) (j : Nat) : Option MNode := s.nodes[j]?

/-- `n->key` (junk `0` when reading the header's uninitialised key). -/
def ISL.keyAt (s : ISL) : NodeRef → Int
  | .header => 0
  | .idx j => match s.node? j with | some n => n.key | none => 0

/-- `n->level() = topLevel+1` (the header was built with
`topLevel = MAX_FORWARD`). -/
def ISL.levelAt (s : ISL) : NodeRef → Nat
  | .header => MAX_FORWARD + 1
  | .idx j => match s.node? j with | some n => n.topLevel + 1 | none => 1

/-- `n->forward[i]` as a chain position: the first node at or after
`start` whose tower reaches level `i`. -/
def fwdFrom (s : ISL) (start i : Nat) : Option Nat :=
  ((s.nodes.drop start).findIdx? (fun n => i ≤ n.topLevel)).map (· + start)

/-- `r->forward[i]`. -/
def ISL.fwd (s : ISL) (r : NodeRef) (i : Nat) : Option Nat :=
  match r with
  | .header => fwdFrom s 0 i
  | .idx j => fwdFrom s (j + 1) i

/-- `r->markers[i]` (out-of-tower reads give the empty list). -/
def ISL.mks (s : ISL) (r : NodeRef) (i : Nat) : List Nat :=
  match r with
  | .header => s.hdrMarkers.getD i []
  | .idx j => match s.node? j with | some n => n.markers.getD i [] | none => []

/-- `r->eqMarkers`. -/
def ISL.eqm (s : ISL) (r : NodeRef) : List Nat :=
  match r with
  | .header => s.hdrEq
  | .idx j => match s.node? j with | some n => n.eqMarkers | none => []

def ISL.setMks (s : ISL) (r : NodeRef) (i : Nat) (l : List Nat) : ISL :=
  match r with
  | .header => { s with hdrMarkers := modAt s.hdrMarkers i (fun _ => l) }
  | .idx j =>
      { s with nodes :=
          modAt s.nodes j (fun n => { n with markers := modAt n.markers i (fun _ => l) }) }

def ISL.setEq (s : ISL) (r : NodeRef) (l : List Nat) : ISL :=
  match r with
  | .header => { s with hdrEq := l }
  | .idx j => { s with nodes := modAt s.nodes j (fun n => { n with eqMarkers := l }) }

def ISL.deref (s : ISL) (id : Nat) : Iv := s.cont.deref id

def ISL.ownerAt (s : ISL) (j : Nat) : Int :=
  match s.node? j with | some n => n.ownerCount | none => 0

def ISL.bumpOwner (s : ISL) (j : Nat) (d : Int) : ISL :=
  { s with nodes := modAt s.nodes j (fun n => { n with ownerCount := n.ownerCount + d }) }

/-! ### `IntervalList` operations (on handle lists, C++ list order) -/

/-- `IntervalList::insert`: prepend. -/
def ilInsert (h : Nat) (l : List Nat) : List Nat := h :: l

/-- `IntervalList::remove(I, res)`: unlink the first cell whose
dereferenced value equals `I`; return the attached handle. -/
def ilRemoveVal (c : Container) (I : Iv) : List Nat → Option Nat × List Nat
  | [] => (none, [])
  | x :: xs =>
    if c.deref x = I then (some x, xs)
    else
      let r := ilRemoveVal c I xs
      (r.1, x :: r.2)

/-- `IntervalList::remove(I)` (void form). -/
def ilDropVal (c : Container) (I : Iv) (l : List Nat) : List Nat :=
  (ilRemoveVal c I l).2

/-- `IntervalList::removeAll(l)`: for each cell of `l`, remove one cell of
`self` matching that cell's value. -/
def ilRemoveAll (c : Container) (other self : List Nat) : List Nat :=
  other.foldl (fun s h => ilDropVal c (c.deref h) s) self

/-- `IntervalList::copy(from)`: insert (prepend) every cell of `from` into
`self` in `from`'s order — so `self` gains `from` reversed in front. -/
def ilCopyInto (self from_ : List Nat) : List Nat :=
  from_.foldl (fun s h => h :: s) self

/-- `IntervalList::copy(out)`: emit the dereferenced values in list order. -/
def ilEmit (c : Container) (l : List Nat) : List Iv :=
  l.map c.deref

/-! ### Search -/

/-- The inner advance of `search`: `while (x->forward[i] != 0 &&
x->forward[i]->key < searchKey) x = x->forward[i]`.  Each step strictly
increases the chain position, so `nodes.length + 1` fuel is exact. -/
def advLtAux (s : ISL) (k : Int) (i : Nat) : Nat → NodeRef → NodeRef
  | 0, x => x
  | fuel+1, x =>
    match s.fwd x i with
    | none => x
    | some j => if s.keyAt (.idx j) < k then advLtAux s k i fuel (.idx j) else x

def advLt (s : ISL) (k : Int) (i : Nat) (x : NodeRef) : NodeRef :=
  advLtAux s k i (s.nodes.length + 1) x

/-- `search(searchKey, update)`: descend from `maxLevel` to 0, recording
`update[i]`; return (`x->forward[0]` at the end, update vector).  The
update vector is total with default `header` (in C++ the slots above the
filled range hold stack junk; every reachable read of such a slot in the
modelled routines happens to be either of an explicitly
header-initialised slot or guarded, see `adjOnInsert`/`insertVal`). -/
def searchDown (s : ISL) (k : Int) : Nat → NodeRef → NodeRef × List (Nat × NodeRef)
  | 0, x =>
    let x' := advLt s k 0 x
    (x', [(0, x')])
  | i+1, x =>
    let x' := advLt s k (i+1) x
    let r := searchDown s k i x'
    (r.1, (i+1, x') :: r.2)

def updGet (u : List (Nat × NodeRef)) (i : Nat) : NodeRef :=
  match u.lookup i with
  | some r => r
  | none => .header

/-- `search(searchKey, update)`: result is `(first node with the descent
stopped before)->forward[0]` plus the update vector. -/
def ISL.searchUpd (s : ISL) (k : Int) : Option Nat × List (Nat × NodeRef) :=
  let r := searchDown s k s.maxLevel .header
  (s.fwd r.1 0, r.2)

/-- Public `search(searchKey)`: the node with that key, if present. -/
def ISL.searchPub (s : ISL) (k : Int) : Option Nat :=
  let r := searchDown s k s.maxLevel .header
  match s.fwd r.1 0 with
  | some j => if s.keyAt (.idx j) = k then some j else none
  | none => none

/-! ### `randomLevel` -/

/-- Number of successful coin flips: `while (P < rand.get_double(0,1))
levels++` — the run of leading `true`s of the flip oracle. -/
def countHeads : List Bool → Nat
  | [] => 0
  | true :: fs => countHeads fs + 1
  | false :: _ => 0

/-- `randomLevel()`: the flip count, capped at `maxLevel + 1`. -/
def randomLevel (flips : List Bool) (maxLevel : Nat) : Nat :=
  let levels := countHeads flips
  if levels ≤ maxLevel then levels else maxLevel + 1

end ISkip

namespace ISkip

/-! ### `removeMarkFromLevel` -/

/-- The walk of `removeMarkFromLevel`: `for(x=l; x!=0 && x!=r;
x=x->forward[i]) { x->markers[i]->remove(m); x->eqMarkers->remove(m); }
if(x!=0) x->eqMarkers->remove(m);`.  The cursor strictly advances, so
`nodes.length + 1` fuel always suffices. -/
def rmlWalk (m : Iv) (i : Nat) (r : NodeRef) : Nat → ISL → Option NodeRef → ISL
  | _, s, none => s
  | 0, s, some _ => s
  | fuel+1, s, some y =>
    if y = r then s.setEq y (ilDropVal s.cont m (s.eqm y))
    else
      let s1 := s.setMks y i (ilDropVal s.cont m (s.mks y i))
      let s2 := s1.setEq y (ilDropVal s1.cont m (s1.eqm y))
      rmlWalk m i r fuel s2 ((s2.fwd y i).map .idx)

/-- `removeMarkFromLevel(m, i, l, r)`. -/
def ISL.rmFromLevel (s : ISL) (m : Iv) (i : Nat) (l r : NodeRef) : ISL :=
  rmlWalk m i r (s.nodes.length + 1) s (some l)

/-! ### `placeMarkers` -/

/-- The inner level-raising loop of `placeMarkers` / `removeMarkers`:
`while(i != x->level()-1 && x->forward[i+1] != 0 &&
I->contains_interval(x->key, x->forward[i+1]->key)) i++`. -/
def raiseLevel (s : ISL) (I : Iv) (x : Nat) : Nat → Nat → Nat
  | 0, i => i
  | fuel+1, i =>
    let ok : Bool :=
      match s.fwd (.idx x) (i+1) with
      | some j => I.containsI (s.keyAt (.idx x)) (s.keyAt (.idx j))
      | none => false
    if (decide (i ≠ s.levelAt (.idx x) - 1) && ok) = true then
      raiseLevel s I x fuel (i+1)
    else i

/-- The inner level-lowering loop: `while(i != 0 && (x->forward[i] == 0 ||
!I->contains_interval(x->key, x->forward[i]->key))) i--`. -/
def lowerLevel (s : ISL) (I : Iv) (x : Nat) : Nat → Nat → Nat
  | 0, i => i
  | fuel+1, i =>
    let bad : Bool :=
      match s.fwd (.idx x) i with
      | some j => ! I.containsI (s.keyAt (.idx x)) (s.keyAt (.idx j))
      | none => true
    if (decide (i ≠ 0) && bad) = true then
      lowerLevel s I x fuel (i-1)
    else i

/-- Ascending phase of `placeMarkers`; returns the state, the node and the
level at which the ascent stopped.  `none` models the executions where
the C++ loop would spin forever on a null `forward[i]` (unreachable in
the real control flow since the raise is guarded by `forward[i+1]!=0`). -/
def pmAsc (I : Iv) (ih : Nat) : Nat → ISL → Nat → Nat → Option (ISL × Nat × Nat)
  | 0, _, _, _ => none
  | fuel+1, s, x, i =>
    match s.fwd (.idx x) i with
    | none => some (s, x, i)
    | some j =>
      if I.containsI (s.keyAt (.idx x)) (s.keyAt (.idx j)) then
        let i' := raiseLevel s I x (s.levelAt (.idx x)) i
        match s.fwd (.idx x) i' with
        | none => none
        | some j' =>
          let s1 := s.setMks (.idx x) i' (ilInsert ih (s.mks (.idx x) i'))
          let s2 := if I.contains (s1.keyAt (.idx j')) then
                      s1.setEq (.idx j') (ilInsert ih (s1.eqm (.idx j')))
                    else s1
          pmAsc I ih fuel s2 j' i'
      else some (s, x, i)

/-- Descending ("non-ascending") phase of `placeMarkers`: `while(x->key !=
right->key) { lower i; mark; advance; eq-mark }`.  `none` models the C++
crash of walking off the end of the list when `right` is never reached. -/
def pmDesc (I : Iv) (ih : Nat) (rKey : Int) : Nat → ISL → Nat → Nat → Option ISL
  | 0, _, _, _ => none
  | fuel+1, s, x, i =>
    if s.keyAt (.idx x) = rKey then some s
    else
      let i' := lowerLevel s I x i i
      let s1 := s.setMks (.idx x) i' (ilInsert ih (s.mks (.idx x) i'))
      match s1.fwd (.idx x) i' with
      | none => none
      | some j =>
        let s2 := if I.contains (s1.keyAt (.idx j)) then
                    s1.setEq (.idx j) (ilInsert ih (s1.eqm (.idx j)))
                  else s1
        pmDesc I ih rKey fuel s2 j i'

/-- `placeMarkers(left, right, I)`. -/
def ISL.placeMarkers (s0 : ISL) (l r : Nat) (ih : Nat) : Option ISL :=
  let I := s0.deref ih
  let s := if I.contains (s0.keyAt (.idx l)) then
             s0.setEq (.idx l) (ilInsert ih (s0.eqm (.idx l)))
           else s0
  match pmAsc I ih (s.nodes.length + 1) s l 0 with
  | none => none
  | some (s1, x, i) => pmDesc I ih (s1.keyAt (.idx r)) (s1.nodes.length + 1) s1 x i

/-! ### `removeMarkers(left, I)` -/

/-- `if(list->remove(I, tmp)) res = tmp;` threaded on a marker list. -/
def rmStep (c : Container) (I : Iv) (l : List Nat) (res : Option Nat) :
    List Nat × Option Nat :=
  let r := ilRemoveVal c I l
  (r.2, match r.1 with | some t => some t | none => res)

/-- Ascending phase of `removeMarkers`. -/
def rmAsc (I : Iv) : Nat → ISL → Nat → Nat → Option Nat → Option (ISL × Nat × Nat × Option Nat)
  | 0, _, _, _, _ => none
  | fuel+1, s, x, i, res =>
    match s.fwd (.idx x) i with
    | none => some (s, x, i, res)
    | some j =>
      if I.containsI (s.keyAt (.idx x)) (s.keyAt (.idx j)) then
        let i' := raiseLevel s I x (s.levelAt (.idx x)) i
        match s.fwd (.idx x) i' with
        | none => none
        | some j' =>
          let p1 := rmStep s.cont I (s.mks (.idx x) i') res
          let s1 := s.setMks (.idx x) i' p1.1
          let st2 :=
            if I.contains (s1.keyAt (.idx j')) then
              let p2 := rmStep s1.cont I (s1.eqm (.idx j')) p1.2
              (s1.setEq (.idx j') p2.1, p2.2)
            else (s1, p1.2)
          rmAsc I fuel st2.1 j' i' st2.2
      else some (s, x, i, res)

/-- Descending phase of `removeMarkers`: `while(x->key != I.sup())`. -/
def rmDesc (I : Iv) : Nat → ISL → Nat → Nat → Option Nat → Option (ISL × Option Nat)
  | 0, _, _, _, _ => none
  | fuel+1, s, x, i, res =>
    if s.keyAt (.idx x) = I.sup then some (s, res)
    else
      let i' := lowerLevel s I x i i
      let p1 := rmStep s.cont I (s.mks (.idx x) i') res
      let s1 := s.setMks (.idx x) i' p1.1
      match s1.fwd (.idx x) i' with
      | none => none
      | some j =>
        let st2 :=
          if I.contains (s1.keyAt (.idx j)) then
            let p2 := rmStep s1.cont I (s1.eqm (.idx j)) p1.2
            (s1.setEq (.idx j) p2.1, p2.2)
          else (s1, p1.2)
        rmDesc I fuel st2.1 j i' st2.2

/-- `removeMarkers(left, I)`: walk the staircase removing one matching
cell from every touched list; the returned handle is the one attached to
the last removed cell.  `none` models both walking off the list and the
`assert(*res == I)` failing with `res == 0` (when `res` is a non-null
handle the assert always passes, because every removal matched by the
dereferenced value `I`). -/
def ISL.removeMarkers (s0 : ISL) (left : Nat) (I : Iv) : Option (Nat × ISL) :=
  let st1 :=
    if I.contains (s0.keyAt (.idx left)) then
      let p := rmStep s0.cont I (s0.eqm (.idx left)) none
      (s0.setEq (.idx left) p.1, p.2)
    else (s0, none)
  match rmAsc I (st1.1.nodes.length + 1) st1.1 left 0 st1.2 with
  | none => none
  | some (s1, x, i, res) =>
    match rmDesc I (s1.nodes.length + 1) s1 x i res with
    | none => none
    | some (s2, res') =>
      match res' with
      | none => none
      | some id => some (id, s2)

end ISkip

namespace ISkip

/-- `l->markers[i]->insert(h)`. -/
def ISL.insMks (s : ISL) (r : NodeRef) (i : Nat) (h : Nat) : ISL :=
  s.setMks r i (ilInsert h (s.mks r i))

/-- `l->eqMarkers->insert(h)`. -/
def ISL.insEq (s : ISL) (r : NodeRef) (h : Nat) : ISL :=
  s.setEq r (ilInsert h (s.eqm r))

/-! ### `adjustMarkersOnInsert` -/

/-- Phase 1 of `adjustMarkersOnInsert`: `for(i=0; (i <= x->level()-2) &&
x->forward[i+1]!=0; i++) { scan update[i]->markers[i]; scan promoted;
swap the bags }`.  Returns the state, the promoted bag and the level `i`
at which the loop stopped.  Structural fuel: the loop runs at most
`x->level()` times. -/
def aiP1 (x : Nat) (upd : List (Nat × NodeRef)) :
    Nat → ISL → List Nat → Nat → ISL × List Nat × Nat
  | 0, s, promoted, i => (s, promoted, i)
  | fuel+1, s, promoted, i =>
    match s.fwd (.idx x) (i+1) with
    | none => (s, promoted, i)
    | some j1 =>
      if i + 2 ≤ s.levelAt (.idx x) then
        let markList := s.mks (updGet upd i) i
        let step1 := markList.foldl (fun (p : ISL × List Nat) m =>
          let s := p.1
          if (s.deref m).containsI (s.keyAt (.idx x)) (s.keyAt (.idx j1)) then
            let s' := match s.fwd (.idx x) i with
                      | some f => s.rmFromLevel (s.deref m) i (.idx f) (.idx j1)
                      | none => s
            (s', m :: p.2)
          else (s.insMks (.idx x) i m, p.2)) (s, [])
        let step2 := step1.1 |> fun s1 => promoted.foldl (fun (p : ISL × List Nat) m =>
          let s := p.1
          if ! (s.deref m).containsI (s.keyAt (.idx x)) (s.keyAt (.idx j1)) then
            let s' := s.insMks (.idx x) i m
            let s'' := match s'.fwd (.idx x) i with
                       | some f =>
                         if (s'.deref m).contains (s'.keyAt (.idx f)) then s'.insEq (.idx f) m
                         else s'
                       | none => s'
            (s'', m :: p.2)
          else
            let s' := match s.fwd (.idx x) i with
                      | some f => s.rmFromLevel (s.deref m) i (.idx f) (.idx j1)
                      | none => s
            (s', p.2)) (s1, [])
        let s2 := step2.1
        let promoted' := ilCopyInto (ilRemoveAll s2.cont step2.2 promoted) step1.2
        aiP1 x upd fuel s2 promoted' (i+1)
      else (s, promoted, i)

/-- Phase 2 of `adjustMarkersOnInsert`: `for (i=0; (i <= x->level()-2) &&
!update[i+1]->isHeader(); i++) { snapshot update[i]->markers[i]; scan it;
scan promoted; swap the bags }`. -/
def aiP2 (x : Nat) (upd : List (Nat × NodeRef)) :
    Nat → ISL → List Nat → Nat → ISL × List Nat × Nat
  | 0, s, promoted, i => (s, promoted, i)
  | fuel+1, s, promoted, i =>
    if (decide (i + 2 ≤ s.levelAt (.idx x)) && ! (updGet upd (i+1)).isHeader) = true then
      let tempMarkList := ilCopyInto [] (s.mks (updGet upd i) i)
      let step1 := tempMarkList.foldl (fun (p : ISL × List Nat) m =>
        let s := p.1
        if (s.deref m).containsI (s.keyAt (updGet upd (i+1))) (s.keyAt (.idx x)) then
          (s.rmFromLevel (s.deref m) i (updGet upd (i+1)) (.idx x), m :: p.2)
        else (s, p.2)) (s, [])
      let step2 := step1.1 |> fun s1 => promoted.foldl (fun (p : ISL × List Nat) m =>
        let s := p.1
        if ((! (updGet upd i).isHeader) &&
            (s.deref m).containsI (s.keyAt (updGet upd i)) (s.keyAt (.idx x)) &&
            (! (updGet upd (i+1)).isHeader) &&
            (! (s.deref m).containsI (s.keyAt (updGet upd (i+1))) (s.keyAt (.idx x)))) = true then
          let s' := s.insMks (updGet upd i) i m
          let s'' := if (s'.deref m).contains (s'.keyAt (updGet upd i)) then
                       s'.insEq (updGet upd i) m
                     else s'
          (s'', m :: p.2)
        else
          (s.rmFromLevel (s.deref m) i (updGet upd (i+1)) (.idx x), p.2)) (s1, [])
      let s2 := step2.1
      let promoted' := ilCopyInto (ilRemoveAll s2.cont step2.2 promoted) step1.2
      aiP2 x upd fuel s2 promoted' (i+1)
    else (s, promoted, i)

/-- `adjustMarkersOnInsert(x, update)`. -/
def adjOnInsert (s0 : ISL) (x : Nat) (upd : List (Nat × NodeRef)) : ISL :=
  let p1 := aiP1 x upd (s0.levelAt (.idx x)) s0 [] 0
  let s1 := p1.1
  let promoted := p1.2.1
  let i := p1.2.2
  let s2 := s1.setMks (.idx x) i (ilCopyInto (s1.mks (.idx x) i) promoted)
  let s3 := s2.setMks (.idx x) i (ilCopyInto (s2.mks (.idx x) i) (s2.mks (updGet upd i) i))
  let s4 := promoted.foldl (fun s m =>
      match s.fwd (.idx x) i with
      | some f => if (s.deref m).contains (s.keyAt (.idx f)) then s.insEq (.idx f) m else s
      | none => s) s3
  let p2 := aiP2 x upd (s4.levelAt (.idx x)) s4 [] 0
  let s5 := p2.1
  let promoted2 := p2.2.1
  let i2 := p2.2.2
  let s6 := s5.setMks (updGet upd i2) i2 (ilCopyInto (s5.mks (updGet upd i2) i2) promoted2)
  let s7 := promoted2.foldl (fun s m =>
      if (s.deref m).contains (s.keyAt (updGet upd i2)) then s.insEq (updGet upd i2) m else s) s6
  (List.range (s7.levelAt (.idx x))).foldl
    (fun s i => s.setEq (.idx x) (ilCopyInto (s.eqm (.idx x)) (s.mks (.idx x) i))) s7

/-! ### Endpoint insertion `insert(const Value&)` -/

/-- `header->markers[i]->clear()` for `i = a..b`. -/
def clearHdrFromTo (s : ISL) (a b : Nat) : ISL :=
  (List.range' a (b + 1 - a)).foldl (fun s i => s.setMks .header i []) s

/-- Insert at a chain position. -/
def insAt (l : List α) (n : Nat) (a : α) : List α :=
  match l, n with
  | l, 0 => a :: l
  | [], _+1 => [a]
  | b :: bs, n+1 => b :: insAt bs n a

/-- Remove the element at a chain position. -/
def eraseAt (l : List α) (n : Nat) : List α :=
  match l, n with
  | [], _ => []
  | _ :: bs, 0 => bs
  | b :: bs, n+1 => b :: eraseAt bs n

/-- `insert(const Value& searchKey)`: endpoint insertion.  Returns the
state, the chain position of the node with that key and whether a node
was created. -/
def ISL.insertVal (s : ISL) (k : Int) (flips : List Bool) : ISL × Nat × Bool :=
  let sr := s.searchUpd k
  let upd := sr.2
  let found : Option Nat :=
    match sr.1 with
    | some j => if s.keyAt (.idx j) = k then some j else none
    | none => none
  match found with
  | some j => (s, j, false)
  | none =>
    let newLevel := randomLevel flips s.maxLevel
    let s1 := if s.maxLevel < newLevel then
                { clearHdrFromTo s (s.maxLevel + 1) newLevel with maxLevel := newLevel }
              else s
    let pos := match updGet upd 0 with | .header => 0 | .idx p => p + 1
    let s2 := { s1 with nodes := insAt s1.nodes pos (MNode.mk0 k newLevel) }
    (adjOnInsert s2 pos upd, pos, true)

/-! ### Interval insertion `insert(const Interval&)` -/

/-- `insert(const Interval_handle&)` composed with the handle allocation
of `insert(const Interval&)`.  The flip oracles feed the two endpoint
insertions' `randomLevel()` calls.  The C++ code keeps `left` as a
pointer; the model keeps its chain position, shifted when the `sup`
insertion splices a new node at or before it (only possible for a
malformed interval with `sup < inf`). -/
def ISL.insertIv (s : ISL) (I : Iv) (f1 f2 : List Bool) : Option ISL :=
  let g := s.cont.getNew
  let ih := g.2
  let s1 := { s with cont := g.1.setVal ih I }
  let r1 := s1.insertVal I.inf f1
  let s2 := r1.1
  let left := r1.2.1
  let r2 := s2.insertVal I.sup f2
  let s3 := r2.1
  let right := r2.2.1
  let left' := if r2.2.2 ∧ right ≤ left then left + 1 else left
  let s4 := (s3.bumpOwner left' 1).bumpOwner right 1
  s4.placeMarkers left' right ih

end ISkip

namespace ISkip

/-! ### `adjustMarkersOnDelete` -/

/-- The phase-1 placement walk of `adjustMarkersOnDelete`:
`for(y=update[i+1]; y!=0 && y!=update[i]; y=y->forward[i]) { if
(y!=update[i+1] && m->contains(y->key)) eq-mark; y->markers[i]->insert(m); }
if(y!=0 && y!=update[i+1] && m->contains(y->key)) eq-mark`. -/
def adWalkL (m : Nat) (i : Nat) (start stop : NodeRef) : Nat → ISL → Option NodeRef → ISL
  | _, s, none => s
  | 0, s, some _ => s
  | fuel+1, s, some y =>
    if y = stop then
      if (decide (y ≠ start) && (s.deref m).contains (s.keyAt y)) = true then s.insEq y m else s
    else
      let s1 := if (decide (y ≠ start) && (s.deref m).contains (s.keyAt y)) = true then
                  s.insEq y m
                else s
      let s2 := s1.insMks y i m
      adWalkL m i start stop fuel s2 ((s2.fwd y i).map .idx)

/-- Phase 1 of `adjustMarkersOnDelete` (`for(i=x->level()-1; i>=0; i--)`;
the counter argument is `i+1`). -/
def adP1 (x : Nat) (upd : List (Nat × NodeRef)) : Nat → ISL → List Nat → ISL × List Nat
  | 0, s, demoted => (s, demoted)
  | n+1, s, demoted =>
    let i := n
    let fx := s.fwd (.idx x) i
    let newDemoted := (s.mks (updGet upd i) i).foldl (fun nd m =>
        let bad : Bool :=
          match fx with
          | none => true
          | some f => ! (s.deref m).containsI (s.keyAt (updGet upd i)) (s.keyAt (.idx f))
        if bad then m :: nd else nd) []
    let s1 := s.setMks (updGet upd i) i (ilRemoveAll s.cont newDemoted (s.mks (updGet upd i) i))
    let step := demoted.foldl (fun (p : ISL × List Nat) m =>
        let s := p.1
        let s' := adWalkL m i (updGet upd (i+1)) (updGet upd i)
                    (s.nodes.length + 1) s (some (updGet upd (i+1)))
        let place : Bool :=
          match s'.fwd (.idx x) i with
          | none => false
          | some f => (s'.deref m).containsI (s'.keyAt (updGet upd i)) (s'.keyAt (.idx f))
        if place then (s'.insMks (updGet upd i) i m, m :: p.2) else (s', p.2)) (s1, [])
    let s2 := step.1
    let demoted' := ilCopyInto (ilRemoveAll s2.cont step.2 demoted) newDemoted
    adP1 x upd n s2 demoted'

/-- The phase-2 placement walk: `for(y=x->forward[i]; y!=x->forward[i+1];
y=y->forward[i]) { y->eqMarkers->insert(m); y->markers[i]->insert(m); }` —
note the missing null check: if the target is non-null but never reached
the C++ code dereferences a null pointer (`none`). -/
def adWalkR (m : Nat) (i : Nat) (target : Option Nat) : Nat → ISL → Option Nat → Option ISL
  | 0, s, y => if y = target then some s else none
  | fuel+1, s, y =>
    if y = target then some s
    else
      match y with
      | none => none
      | some j =>
        let s1 := s.insEq (.idx j) m
        let s2 := s1.insMks (.idx j) i m
        adWalkR m i target fuel s2 (s2.fwd (.idx j) i)

/-- Phase 2 of `adjustMarkersOnDelete`.  Faithfully to the source,
`tempRemoved` is *not* cleared between the iterations of this loop (it is
in phase 1), so it is threaded through. -/
def adP2 (x : Nat) (upd : List (Nat × NodeRef)) :
    Nat → ISL → List Nat → List Nat → Option (ISL × List Nat × List Nat)
  | 0, s, demoted, tempRemoved => some (s, demoted, tempRemoved)
  | n+1, s, demoted, tempRemoved => do
    let i := n
    let fx := s.fwd (.idx x) i
    let newDemoted := (s.mks (.idx x) i).foldl (fun nd m =>
        let c : Bool :=
          match fx with
          | none => false
          | some f => (updGet upd i).isHeader ||
              ! (s.deref m).containsI (s.keyAt (updGet upd i)) (s.keyAt (.idx f))
        if c then m :: nd else nd) []
    let step ← demoted.foldlM (fun (p : ISL × List Nat) m => do
        let s := p.1
        let s' ← adWalkR m i (s.fwd (.idx x) (i+1)) (s.nodes.length + 1) s (s.fwd (.idx x) i)
        let keep : Bool :=
          match s'.fwd (.idx x) i with
          | none => false
          | some f => (! (updGet upd i).isHeader) &&
              (s'.deref m).containsI (s'.keyAt (updGet upd i)) (s'.keyAt (.idx f))
        pure (if keep then (s', m :: p.2) else (s', p.2))) (s, tempRemoved)
    let s2 := step.1
    let demoted' := ilCopyInto (ilRemoveAll s2.cont step.2 demoted) newDemoted
    adP2 x upd n s2 demoted' step.2

/-- `adjustMarkersOnDelete(x, update)`. -/
def adjOnDelete (s : ISL) (x : Nat) (upd : List (Nat × NodeRef)) : Option ISL :=
  let lvl := s.levelAt (.idx x)
  let p1 := adP1 x upd lvl s []
  (adP2 x upd lvl p1.1 [] []).map (fun t => t.1)

/-- `remove(IntervalSLnode* x, update)`: adjust markers, splice `x` out of
every level, deallocate. -/
def ISL.removeNode (s : ISL) (x : Nat) (upd : List (Nat × NodeRef)) : Option ISL :=
  (adjOnDelete s x upd).map (fun s' => { s' with nodes := eraseAt s'.nodes x })

/-! ### `remove(const Interval&)` -/

/-- `remove(const Interval& I)`: returns whether the interval was found
and removed, or `none` for the executions in which the C++ code crashes
(`removeMarkers` walking off the list or `assert(*res == I)` on a null
`res`, or a crash inside `adjustMarkersOnDelete`). -/
def ISL.removeIv (s : ISL) (I : Iv) : Option (Bool × ISL) :=
  let sr := s.searchUpd I.inf
  match sr.1 with
  | none => some (false, s)
  | some left =>
    if s.ownerAt left ≤ 0 then some (false, s)
    else do
      let (ih, s1) ← s.removeMarkers left I
      let s2 := { s1 with cont := s1.cont.release ih }
      let s3 := s2.bumpOwner left (-1)
      let s4 ← if s3.ownerAt left = (0 : Int) then s3.removeNode left sr.2 else some s3
      let sr2 := s4.searchUpd I.sup
      match sr2.1 with
      | none => some (false, s4)
      | some right =>
        if s4.ownerAt right ≤ 0 then some (false, s4)
        else do
          let s5 := s4.bumpOwner right (-1)
          let s6 ← if s5.ownerAt right = (0 : Int) then s5.removeNode right sr2.2 else some s5
          some (true, s6)

/-! ### Queries -/

/-- Advance of the query loops: `while (x->forward[i] != 0 && (searchKey
>= x->forward[i]->key)) x = x->forward[i]`. -/
def advLeAux (s : ISL) (k : Int) (i : Nat) : Nat → NodeRef → NodeRef
  | 0, x => x
  | fuel+1, x =>
    match s.fwd x i with
    | none => x
    | some j => if s.keyAt (.idx j) ≤ k then advLeAux s k i fuel (.idx j) else x

def advLe (s : ISL) (k : Int) (i : Nat) (x : NodeRef) : NodeRef :=
  advLeAux s k i (s.nodes.length + 1) x

/-- The descent loop of `find_intervals`, threading the whole index state
(the body of the C++ loop contains no assignment to any node, marker
list or container field, so the state argument is returned as received;
the counter argument is `i+1`). -/
def fiGo (k : Int) : Nat → ISL → NodeRef → List Iv → ISL × List Iv
  | 0, s, _, out => (s, out)
  | n+1, s, x, out =>
    if x.isHeader = false ∧ s.keyAt x = k then (s, out)
    else
      let x' := advLe s k n x
      let out' :=
        if x'.isHeader = false ∧ s.keyAt x' ≠ k then out ++ ilEmit s.cont (s.mks x' n)
        else if x'.isHeader = false then out ++ ilEmit s.cont (s.eqm x')
        else out
      fiGo k n s x' out'

/-- `find_intervals(searchKey, out)`, state-threaded. -/
def ISL.findIntervalsST (s : ISL) (k : Int) : ISL × List Iv :=
  fiGo k (s.maxLevel + 1) s .header []

/-- The value list appended to the output iterator by
`find_intervals(searchKey, out)`. -/
def ISL.findIntervals (s : ISL) (k : Int) : List Iv :=
  (s.findIntervalsST k).2

/-- The descent loop of `is_contained` (both of whose non-header branches
`return true`, faithfully to the source). -/
def icGo (k : Int) : Nat → ISL → NodeRef → ISL × Bool
  | 0, s, _ => (s, false)
  | n+1, s, x =>
    if x.isHeader = false ∧ s.keyAt x = k then (s, false)
    else
      let x' := advLe s k n x
      if x'.isHeader = false then (s, true) else icGo k n s x'

/-- `is_contained(searchKey)`, state-threaded. -/
def ISL.isContainedST (s : ISL) (k : Int) : ISL × Bool :=
  icGo k (s.maxLevel + 1) s .header

def ISL.isContained (s : ISL) (k : Int) : Bool :=
  (s.isContainedST k).2

/-- The descent loop of the public `search(searchKey)`. -/
def spGo (k : Int) : Nat → ISL → NodeRef → ISL × NodeRef
  | 0, s, x => (s, x)
  | n+1, s, x => spGo k n s (advLt s k n x)

/-- Public `search(searchKey)`, state-threaded. -/
def ISL.searchPubST (s : ISL) (k : Int) : ISL × Option Nat :=
  let r := spGo k (s.maxLevel + 1) s .header
  match r.1.fwd r.2 0 with
  | some j => if r.1.keyAt (.idx j) = k then (r.1, some j) else (r.1, none)
  | none => (r.1, none)

/-! ### Operation sequences -/

/-- One public mutating operation: `insert(I)` (with the flip oracles
consumed by the two `randomLevel()` calls) or `remove(I)`. -/
inductive Op where
  | ins : Iv → List Bool → List Bool → Op
  | rem : Iv → Op
deriving DecidableEq, Repr

def ISL.execOp (s : ISL) : Op → Option ISL
  | .ins I f1 f2 => s.insertIv I f1 f2
  | .rem I => (s.removeIv I).map (fun p => p.2)

/-- Run a sequence of operations from the empty index; `none` when some
operation crashes. -/
def exec (ops : List Op) : Option ISL :=
  ops.foldlM ISL.execOp ISL.empty

/-! ### Observers used by the claims -/

/-- The multiset of stored intervals: the values of the live slots. -/
def ISL.storedVals (s : ISL) : List Iv :=
  s.cont.liveIds.map s.cont.deref

/-- Multiplicity of a value in a list of intervals. -/
def countV (l : List Iv) (v : Iv) : Nat :=
  (l.filter (fun x => x = v)).length

/-- `ownerCount` of the node with key `k` (0 if absent). -/
def ISL.ownerAtKey (s : ISL) (k : Int) : Int :=
  match s.nodes.find? (fun n => n.key = k) with
  | some n => n.ownerCount
  | none => 0

def ISL.hasKey (s : ISL) (k : Int) : Bool :=
  s.nodes.any (fun n => n.key = k)

/-- Endpoint incidences of one interval at a value. -/
def endpointHits (I : Iv) (v : Int) : Nat :=
  (if I.inf = v then 1 else 0) + (if I.sup = v then 1 else 0)

/-- Endpoint incidences of the whole store at a value. -/
def ISL.incid (s : ISL) (v : Int) : Nat :=
  (s.storedVals.map (fun I => endpointHits I v)).sum

/-- Values of the marker list on the level-`i` edge out of node position `j`. -/
def ISL.mksVals (s : ISL) (j i : Nat) : List Iv :=
  ilEmit s.cont (s.mks (.idx j) i)

/-- Values of the `eqMarkers` of node position `j`. -/
def ISL.eqVals (s : ISL) (j : Nat) : List Iv :=
  ilEmit s.cont (s.eqm (.idx j))

/-! ### Concrete operation sequences examined below -/

/-- Two equal intervals, a nested one, one removal (which, matching by
value, strips the wrong handles), then an insertion that re-uses the
released slot. -/
def cexC1 : List Op :=
  [.ins ⟨2, 6⟩ [] [], .ins ⟨2, 6⟩ [] [], .ins ⟨3, 5⟩ [] [],
   .rem ⟨2, 6⟩, .ins ⟨10, 20⟩ [] []]

/-- Duplicate zero-length and overlapping intervals whose value-matched
removals mix up interval handles and node splicing. -/
def cexC7 : List Op :=
  [.ins ⟨4, 4⟩ [true, true] [true, true], .ins ⟨2, 6⟩ [] [true, true],
   .ins ⟨2, 6⟩ [true] [true, true], .ins ⟨5, 6⟩ [true, true] [true, true],
   .rem ⟨2, 6⟩, .ins ⟨4, 4⟩ [] [true, true], .rem ⟨4, 4⟩, .rem ⟨4, 4⟩]

/-- 48 insertions of zero-length intervals with descending keys whose coin
flips come up heads 1, 2, ..., 48 times. -/
def growOps2 : List Op :=
  (List.range 48).map
    (fun j => .ins ⟨48 - Int.ofNat j, 48 - Int.ofNat j⟩ (List.replicate (j + 1) true) [])

/-- A one-node index holding the zero-length interval `[3,3]`. -/
def W9 : ISL := (exec [.ins ⟨3, 3⟩ [] []]).getD ISL.empty

end ISkip


namespace ISkip

/-! ### Skeleton frame: the marker routines touch only marker/eq lists -/

/-- The marker-free part of a node. -/
def nodeSkel (n : MNode) : Int × Nat × Int := (n.key, n.topLevel, n.ownerCount)

/-- The marker-free part of the whole state: node skeletons in chain
order, `maxLevel`, and the element store. -/
def skel (s : ISL) : List (Int × Nat × Int) × Nat × Container :=
  (s.nodes.map nodeSkel, s.maxLevel, s.cont)

theorem modAt_map {α β : Type _} (g : α → β) (f : α → α)
    (hf : ∀ a, g (f a) = g a) :
    ∀ (l : List α) (n : Nat), (modAt l n f).map g = l.map g
  | [], _ => rfl
  | a :: as, 0 => by simp [modAt, hf]
  | a :: as, n+1 => by simp [modAt, modAt_map g f hf as n]

theorem skel_setMks (s : ISL) (r : NodeRef) (i : Nat) (l : List Nat) :
    skel (s.setMks r i l) = skel s := by
  cases r with
  | header => rfl
  | idx j =>
    simp only [ISL.setMks, skel]
    rw [modAt_map nodeSkel
      (fun n => { n with markers := modAt n.markers i (fun _ => l) }) (fun a => rfl)]

theorem skel_setEq (s : ISL) (r : NodeRef) (l : List Nat) :
    skel (s.setEq r l) = skel s := by
  cases r with
  | header => rfl
  | idx j =>
    simp only [ISL.setEq, skel]
    rw [modAt_map nodeSkel (fun n => { n with eqMarkers := l }) (fun a => rfl)]

theorem skel_insMks (s : ISL) (r : NodeRef) (i h : Nat) :
    skel (s.insMks r i h) = skel s := skel_setMks ..

theorem skel_insEq (s : ISL) (r : NodeRef) (h : Nat) :
    skel (s.insEq r h) = skel s := skel_setEq ..

theorem foldl_pres {α β : Type _} {P : β → Prop} {f : β → α → β}
    (hf : ∀ b a, P b → P (f b a)) :
    ∀ (l : List α) (b : β), P b → P (l.foldl f b)
  | [], _, hb => hb
  | x :: xs, b, hb => foldl_pres hf xs (f b x) (hf b x hb)

theorem skel_rmlWalk (m : Iv) (i : Nat) (r : NodeRef) :
    ∀ (fuel : Nat) (s : ISL) (cur : Option NodeRef),
      skel (rmlWalk m i r fuel s cur) = skel s
  | 0, s, none => rfl
  | fuel+1, s, none => rfl
  | 0, s, some _ => rfl
  | fuel+1, s, some y => by
    unfold rmlWalk
    split
    · exact skel_setEq ..
    · rw [skel_rmlWalk m i r fuel]
      rw [skel_setEq, skel_setMks]

theorem skel_rmFromLevel (s : ISL) (m : Iv) (i : Nat) (l r : NodeRef) :
    skel (s.rmFromLevel m i l r) = skel s := skel_rmlWalk ..

theorem skel_aiP1 (x : Nat) (upd : List (Nat × NodeRef)) :
    ∀ (fuel : Nat) (s : ISL) (promoted : List Nat) (i : Nat),
      skel (aiP1 x upd fuel s promoted i).1 = skel s
  | 0, s, promoted, i => rfl
  | fuel+1, s, promoted, i => by
    unfold aiP1
    split
    · rfl
    · split
      · rw [skel_aiP1 x upd fuel]
        refine foldl_pres (P := fun (p : ISL × List Nat) => skel p.1 = skel s) ?_ _ _
          (foldl_pres (P := fun (p : ISL × List Nat) => skel p.1 = skel s) ?_ _ _ rfl)
        · intro b a hb
          dsimp only
          split
          · split
            · split
              · rw [skel_insEq, skel_insMks]; exact hb
              · rw [skel_insMks]; exact hb
            · rw [skel_insMks]; exact hb
          · split
            · rw [skel_rmFromLevel]; exact hb
            · exact hb
        · intro b a hb
          dsimp only
          split
          · split
            · rw [skel_rmFromLevel]; exact hb
            · exact hb
          · rw [skel_insMks]; exact hb
      · rfl


theorem skel_aiP2 (x : Nat) (upd : List (Nat × NodeRef)) :
    ∀ (fuel : Nat) (s : ISL) (promoted : List Nat) (i : Nat),
      skel (aiP2 x upd fuel s promoted i).1 = skel s
  | 0, s, promoted, i => rfl
  | fuel+1, s, promoted, i => by
    unfold aiP2
    split
    · rw [skel_aiP2 x upd fuel]
      refine foldl_pres (P := fun (p : ISL × List Nat) => skel p.1 = skel s) ?_ _ _
        (foldl_pres (P := fun (p : ISL × List Nat) => skel p.1 = skel s) ?_ _ _ rfl)
      · intro b a hb
        dsimp only
        split
        · split
          · rw [skel_insEq, skel_insMks]; exact hb
          · rw [skel_insMks]; exact hb
        · rw [skel_rmFromLevel]; exact hb
      · intro b a hb
        dsimp only
        split
        · rw [skel_rmFromLevel]; exact hb
        · exact hb
    · rfl

theorem skel_adjOnInsert (s : ISL) (x : Nat) (upd : List (Nat × NodeRef)) :
    skel (adjOnInsert s x upd) = skel s := by
  unfold adjOnInsert
  refine foldl_pres (P := fun (t : ISL) => skel t = skel s)
    (fun b a hb => by show skel _ = skel s; rw [skel_setEq]; exact hb) _ _ ?_
  refine foldl_pres (P := fun (t : ISL) => skel t = skel s) ?_ _ _ ?_
  · intro b a hb
    show skel _ = skel s
    dsimp only
    split
    · rw [skel_insEq]; exact hb
    · exact hb
  · show skel _ = skel s
    rw [skel_setMks, skel_aiP2]
    refine foldl_pres (P := fun (t : ISL) => skel t = skel s) ?_ _ _ ?_
    · intro b a hb
      show skel _ = skel s
      dsimp only
      split
      · split
        · rw [skel_insEq]; exact hb
        · exact hb
      · exact hb
    · show skel _ = skel s
      rw [skel_setMks, skel_setMks, skel_aiP1]


/-! ### Transport: `keyAt`, `fwd`, `levelAt` depend only on keys and towers -/

/-- Keys and tower heights in chain order. -/
def twr (s : ISL) : List (Int × Nat) := s.nodes.map (fun n => (n.key, n.topLevel))

theorem twr_eq_of_skel {s' s : ISL} (h : skel s' = skel s) : twr s' = twr s := by
  have h1 : s'.nodes.map nodeSkel = s.nodes.map nodeSkel := congrArg Prod.fst h
  have h2 := congrArg (List.map (fun t : Int × Nat × Int => (t.1, t.2.1))) h1
  simpa [twr, nodeSkel, Function.comp] using h2

theorem cont_eq_of_skel {s' s : ISL} (h : skel s' = skel s) : s'.cont = s.cont :=
  congrArg (fun t => t.2.2) h

theorem twr_bumpOwner (s : ISL) (j : Nat) (d : Int) : twr (s.bumpOwner j d) = twr s := by
  simp only [twr, ISL.bumpOwner]
  exact modAt_map (fun (n : MNode) => (n.key, n.topLevel))
    (fun n => { n with ownerCount := n.ownerCount + d }) (fun a => rfl) s.nodes j

theorem keyAt_twr (s : ISL) (j : Nat) :
    s.keyAt (.idx j) = (match (twr s)[j]? with | some t => t.1 | none => 0) := by
  simp only [ISL.keyAt, ISL.node?, twr, List.getElem?_map]
  cases s.nodes[j]? <;> rfl

theorem keyAt_eq_of_twr {s' s : ISL} (h : twr s' = twr s) (r : NodeRef) :
    s'.keyAt r = s.keyAt r := by
  cases r with
  | header => rfl
  | idx j => rw [keyAt_twr, keyAt_twr, h]

theorem levelAt_twr (s : ISL) (j : Nat) :
    s.levelAt (.idx j) = (match (twr s)[j]? with | some t => t.2 + 1 | none => 1) := by
  simp only [ISL.levelAt, ISL.node?, twr, List.getElem?_map]
  cases s.nodes[j]? <;> rfl

theorem levelAt_eq_of_twr {s' s : ISL} (h : twr s' = twr s) (r : NodeRef) :
    s'.levelAt r = s.levelAt r := by
  cases r with
  | header => rfl
  | idx j => rw [levelAt_twr, levelAt_twr, h]

theorem nodesLen_twr (s : ISL) : s.nodes.length = (twr s).length := by
  simp [twr]

theorem fwdFrom_twr (s : ISL) (start i : Nat) :
    fwdFrom s start i =
      (((twr s).drop start).findIdx? (fun t => i ≤ t.2)).map (· + start) := by
  unfold fwdFrom twr
  rw [← List.map_drop, List.findIdx?_map]
  rfl

theorem fwd_eq_of_twr {s' s : ISL} (h : twr s' = twr s) (r : NodeRef) (i : Nat) :
    s'.fwd r i = s.fwd r i := by
  cases r with
  | header => simp only [ISL.fwd, fwdFrom_twr, h]
  | idx j => simp only [ISL.fwd, fwdFrom_twr, h]

/-! ### Level-0 forward pointers and the search descent on a key-split state -/

/-- Chain position following a reference: the header is before position 0. -/
def posN : NodeRef → Nat
  | .header => 0
  | .idx q => q + 1

theorem findIdx?_always {α : Type _} {p : α → Bool} (hp : ∀ a, p a = true) :
    ∀ l : List α, l.findIdx? p = if l.length = 0 then none else some 0
  | [] => rfl
  | a :: as => by simp [List.findIdx?_cons, hp a]

theorem fwd0_char (s : ISL) (x : NodeRef) :
    s.fwd x 0 = if posN x < s.nodes.length then some (posN x) else none := by
  have hp : ∀ n : MNode, decide (0 ≤ n.topLevel) = true := fun n => by simp
  have key : ∀ st, fwdFrom s st 0 = if st < s.nodes.length then some st else none := by
    intro st
    unfold fwdFrom
    rw [findIdx?_always hp]
    rcases Nat.lt_or_ge st s.nodes.length with h | h
    · have h1 : ¬ (s.nodes.length - st = 0) := by omega
      simp [List.length_drop, h1, h]
    · have h1 : s.nodes.length - st = 0 := by omega
      simp [List.length_drop, h1, Nat.not_lt.mpr h]
  cases x with
  | header => exact key 0
  | idx q => exact key (q+1)

theorem fwd_some_facts {s : ISL} {x : NodeRef} {i j : Nat} (h : s.fwd x i = some j) :
    j < s.nodes.length ∧ posN x ≤ j := by
  have key : ∀ st, fwdFrom s st i = some j → j < s.nodes.length ∧ st ≤ j := by
    intro st hst
    simp only [fwdFrom, Option.map_eq_some'] at hst
    obtain ⟨d, hd, rfl⟩ := hst
    rw [List.findIdx?_eq_some_iff_getElem] at hd
    obtain ⟨hlt, -, -⟩ := hd
    simp only [List.length_drop] at hlt
    exact ⟨by omega, by omega⟩
  cases x with
  | header => exact key 0 h
  | idx q => exact key (q+1) h


/-- Position `p` splits the chain at key `k`: all nodes before `p` have
keys `< k`, all nodes from `p` on have keys `≥ k`.  This is what a
strictly sorted chain provides at every key. -/
def splitG (s : ISL) (k : Int) (p : Nat) : Prop :=
  p ≤ s.nodes.length ∧ (∀ j, j < p → s.keyAt (.idx j) < k) ∧
    (∀ j, p ≤ j → j < s.nodes.length → k ≤ s.keyAt (.idx j))

theorem advLt_inv {s : ISL} {k : Int} {p : Nat} (hsp : splitG s k p) (i : Nat) :
    ∀ (fuel : Nat) (x : NodeRef), posN x ≤ p → posN (advLtAux s k i fuel x) ≤ p
  | 0, x, hx => hx
  | fuel+1, x, hx => by
    unfold advLtAux
    cases hfw : s.fwd x i with
    | none => exact hx
    | some j =>
      dsimp only
      split
      next hkey =>
        refine advLt_inv hsp i fuel (.idx j) ?_
        have hj := fwd_some_facts hfw
        have : j < p := by
          by_contra hge
          exact absurd hkey (not_lt.mpr (hsp.2.2 j (by omega) hj.1))
        simpa [posN] using this
      next hkey => exact hx

theorem posN_eq_pred {x : NodeRef} {p : Nat} (hx : posN x = p) :
    x = (if p = 0 then NodeRef.header else NodeRef.idx (p-1)) := by
  cases x with
  | header =>
    simp only [posN] at hx
    simp [← hx]
  | idx q =>
    simp only [posN] at hx
    have hp : ¬ (p = 0) := by omega
    rw [if_neg hp]
    congr 1
    omega

theorem advLt0_char {s : ISL} {k : Int} {p : Nat} (hsp : splitG s k p) :
    ∀ (fuel : Nat) (x : NodeRef), posN x ≤ p → s.nodes.length ≤ posN x + fuel →
      advLtAux s k 0 fuel x = (if p = 0 then NodeRef.header else .idx (p-1))
  | 0, x, hx, hfuel => by
    have hple : p ≤ s.nodes.length := hsp.1
    have hpos : posN x = p := by omega
    show x = _
    exact posN_eq_pred hpos
  | fuel+1, x, hx, hfuel => by
    unfold advLtAux
    rw [fwd0_char]
    by_cases hlt : posN x < s.nodes.length
    · rw [if_pos hlt]
      dsimp only
      split
      next hkey =>
        refine advLt0_char hsp fuel (.idx (posN x)) ?_ ?_
        · show posN x + 1 ≤ p
          have : posN x < p := by
            by_contra hge
            exact absurd hkey (not_lt.mpr (hsp.2.2 (posN x) (by omega) hlt))
          omega
        · show s.nodes.length ≤ posN x + 1 + fuel
          omega
      next hkey =>
        have hxp : posN x = p := by
          rcases Nat.lt_or_ge (posN x) p with h | h
          · exact absurd (hsp.2.1 (posN x) h) hkey
          · omega
        exact posN_eq_pred hxp
    · rw [if_neg hlt]
      have hple : p ≤ s.nodes.length := hsp.1
      have hpos : posN x = p := by omega
      exact posN_eq_pred hpos

theorem updGet_cons_self (i : Nat) (v : NodeRef) (u : List (Nat × NodeRef)) :
    updGet ((i, v) :: u) i = v := by
  simp [updGet, List.lookup]

theorem updGet_cons_ne {i j : Nat} (h : i ≠ j) (v : NodeRef) (u : List (Nat × NodeRef)) :
    updGet ((j, v) :: u) i = updGet u i := by
  have hb : (i == j) = false := by simpa using h
  simp [updGet, List.lookup, hb]

theorem searchDown_char {s : ISL} {k : Int} {p : Nat} (hsp : splitG s k p) :
    ∀ (n : Nat) (x : NodeRef), posN x ≤ p →
      (searchDown s k n x).1 = (if p = 0 then NodeRef.header else .idx (p-1)) ∧
      updGet (searchDown s k n x).2 0 = (if p = 0 then NodeRef.header else .idx (p-1))
  | 0, x, hx => by
    unfold searchDown
    have hc := advLt0_char hsp (s.nodes.length + 1) x hx (by omega)
    refine ⟨hc, ?_⟩
    show updGet [(0, advLt s k 0 x)] 0 = _
    rw [updGet_cons_self]
    exact hc
  | n+1, x, hx => by
    unfold searchDown
    have hx' : posN (advLt s k (n+1) x) ≤ p := advLt_inv hsp (n+1) _ x hx
    have IH := searchDown_char hsp n (advLt s k (n+1) x) hx'
    refine ⟨IH.1, ?_⟩
    show updGet ((n+1, advLt s k (n+1) x) :: (searchDown s k n (advLt s k (n+1) x)).2) 0 = _
    rw [updGet_cons_ne (by omega)]
    exact IH.2

theorem searchUpd_char {s : ISL} {k : Int} {p : Nat} (hsp : splitG s k p) :
    (s.searchUpd k).1 = (if p < s.nodes.length then some p else none) ∧
    updGet (s.searchUpd k).2 0 = (if p = 0 then NodeRef.header else .idx (p-1)) := by
  have h := searchDown_char hsp s.maxLevel .header (by simp [posN])
  unfold ISL.searchUpd
  refine ⟨?_, h.2⟩
  show s.fwd (searchDown s k s.maxLevel NodeRef.header).1 0 = _
  rw [h.1, fwd0_char]
  by_cases hp0 : p = 0
  · subst hp0
    simp [posN]
  · rw [if_neg hp0]
    have hpn : posN (.idx (p-1)) = p := by
      simp only [posN]
      omega
    rw [hpn]


/-! ### List surgery lemmas -/

theorem modAt_getElem?_self (f : α → α) :
    ∀ (l : List α) (n : Nat), (modAt l n f)[n]? = l[n]?.map f
  | [], _ => by simp [modAt]
  | a :: as, 0 => by simp [modAt]
  | a :: as, n+1 => by
    simp only [modAt, List.getElem?_cons_succ]
    exact modAt_getElem?_self f as n

theorem modAt_getElem?_ne (f : α → α) :
    ∀ (l : List α) {n m : Nat}, n ≠ m → (modAt l n f)[m]? = l[m]?
  | [], _, _, _ => by simp [modAt]
  | a :: as, 0, 0, h => absurd rfl h
  | a :: as, 0, m+1, _ => by simp [modAt]
  | a :: as, n+1, 0, _ => by simp [modAt]
  | a :: as, n+1, m+1, h => by
    simp only [modAt, List.getElem?_cons_succ]
    exact modAt_getElem?_ne f as (fun hc => h (by omega))

theorem modAt_map_comm {α β : Type _} {g : α → β} {f : α → α} {f' : β → β}
    (hcomm : ∀ a, g (f a) = f' (g a)) :
    ∀ (l : List α) (n : Nat), (modAt l n f).map g = modAt (l.map g) n f'
  | [], _ => rfl
  | a :: as, 0 => by simp [modAt, hcomm]
  | a :: as, n+1 => by simp [modAt, modAt_map_comm hcomm as n]

theorem insAt_map {α β : Type _} (g : α → β) (a : α) :
    ∀ (l : List α) (p : Nat), (insAt l p a).map g = insAt (l.map g) p (g a)
  | [], 0 => rfl
  | [], _+1 => rfl
  | b :: bs, 0 => rfl
  | b :: bs, p+1 => by simp [insAt, insAt_map g a bs p]

theorem insAt_length (a : α) :
    ∀ (l : List α) (p : Nat), p ≤ l.length → (insAt l p a).length = l.length + 1
  | [], 0, _ => rfl
  | [], _+1, h => by simp at h
  | b :: bs, 0, _ => rfl
  | b :: bs, p+1, h => by
    simp only [insAt, List.length_cons]
    rw [insAt_length a bs p (by simpa using h)]

theorem insAt_getElem?_lt (a : α) :
    ∀ (l : List α) (p j : Nat), p ≤ l.length → j < p → (insAt l p a)[j]? = l[j]?
  | [], _, _, hp, h => by
    simp only [List.length_nil] at hp
    omega
  | b :: bs, 0, j, _, h => by omega
  | b :: bs, p+1, 0, _, _ => by simp [insAt]
  | b :: bs, p+1, j+1, hp, h => by
    simp only [insAt, List.getElem?_cons_succ]
    exact insAt_getElem?_lt a bs p j (by simpa using hp) (by omega)

theorem insAt_getElem?_self (a : α) :
    ∀ (l : List α) (p : Nat), p ≤ l.length → (insAt l p a)[p]? = some a
  | [], 0, _ => rfl
  | [], _+1, h => by simp at h
  | b :: bs, 0, _ => rfl
  | b :: bs, p+1, h => by
    simp only [insAt, List.getElem?_cons_succ]
    exact insAt_getElem?_self a bs p (by simpa using h)

theorem insAt_getElem?_gt (a : α) :
    ∀ (l : List α) (p j : Nat), p < j → (insAt l p a)[j]? = l[j-1]?
  | _, _, 0, h => by omega
  | [], 0, j+1, _ => by
    show (a :: ([] : List α))[j+1]? = _
    simp
  | [], p+1, j+1, _ => by
    show (a :: ([] : List α))[j+1]? = _
    simp
  | b :: bs, 0, j+1, _ => by
    show (a :: b :: bs)[j+1]? = _
    simp
  | b :: bs, p+1, j+1, h => by
    show (b :: insAt bs p a)[j+1]? = _
    simp only [List.getElem?_cons_succ]
    rw [insAt_getElem?_gt a bs p j (by omega)]
    cases j with
    | zero => omega
    | succ j => simp

/-! ### `ownerAtKey` through the skeleton -/

theorem find?_first {α : Type _} {p : α → Bool} :
    ∀ (l : List α) (q : Nat) (x : α), l[q]? = some x → p x = true →
      (∀ j, j < q → (match l[j]? with | some y => p y = false | none => True)) →
      l.find? p = some x
  | [], q, x, hq, _, _ => by simp at hq
  | a :: as, 0, x, hq, hx, _ => by
    simp only [List.getElem?_cons_zero, Option.some.injEq] at hq
    subst hq
    simp [List.find?, hx]
  | a :: as, q+1, x, hq, hx, hbelow => by
    have h0 := hbelow 0 (by omega)
    simp only [List.getElem?_cons_zero] at h0
    simp only [List.getElem?_cons_succ] at hq
    simp only [List.find?, h0]
    exact find?_first as q x hq hx (fun j hj => by
      have := hbelow (j+1) (by omega)
      simpa using this)

theorem ownerAtKey_at {s : ISL} {k : Int} {q : Nat} {n : MNode}
    (hq : s.node? q = some n) (hkey : n.key = k)
    (hbelow : ∀ j, j < q → s.keyAt (.idx j) ≠ k) :
    s.ownerAtKey k = n.ownerCount := by
  unfold ISL.ownerAtKey
  rw [find?_first s.nodes q n hq (by simp [hkey]) ?_]
  intro j hj
  cases hjq : s.nodes[j]? with
  | none => trivial
  | some m =>
    have := hbelow j hj
    simp only [ISL.keyAt, ISL.node?, hjq] at this
    simp [this]

theorem ownerAtKey_absent {s : ISL} {k : Int}
    (h : ∀ j, j < s.nodes.length → s.keyAt (.idx j) ≠ k) :
    s.ownerAtKey k = 0 := by
  unfold ISL.ownerAtKey
  rw [List.find?_eq_none.mpr ?_]
  intro n hn
  obtain ⟨j, hj, rfl⟩ := List.mem_iff_getElem.mp hn
  have := h j hj
  simp only [ISL.keyAt, ISL.node?, List.getElem?_eq_getElem hj] at this
  simp [this]


/-! ### `insert(const Value&)` characterised on a split state -/

theorem clearHdr_parts (s : ISL) (a b : Nat) :
    (clearHdrFromTo s a b).nodes = s.nodes ∧ (clearHdrFromTo s a b).cont = s.cont ∧
      (clearHdrFromTo s a b).maxLevel = s.maxLevel := by
  unfold clearHdrFromTo
  refine foldl_pres
    (P := fun (t : ISL) => t.nodes = s.nodes ∧ t.cont = s.cont ∧ t.maxLevel = s.maxLevel)
    ?_ _ _ ⟨rfl, rfl, rfl⟩
  intro t i ht
  exact ht

theorem insertVal_found {s : ISL} {k : Int} {p : Nat} (hsp : splitG s k p)
    (hlt : p < s.nodes.length) (hkey : s.keyAt (.idx p) = k) (f : List Bool) :
    s.insertVal k f = (s, p, false) := by
  have hc := searchUpd_char hsp
  have hsome : (s.searchUpd k).1 = some p := by
    rw [hc.1, if_pos hlt]
  unfold ISL.insertVal
  simp [hsome, hkey]

theorem insertVal_new {s : ISL} {k : Int} {p : Nat} (hsp : splitG s k p)
    (habs : p < s.nodes.length → ¬ (s.keyAt (.idx p) = k)) (f : List Bool) :
    (s.insertVal k f).2 = (p, true) ∧
    skel (s.insertVal k f).1 =
      (insAt (s.nodes.map nodeSkel) p (k, randomLevel f s.maxLevel, 0),
       (if s.maxLevel < randomLevel f s.maxLevel then randomLevel f s.maxLevel else s.maxLevel),
       s.cont) := by
  have hc := searchUpd_char hsp
  have hnone :
      (match (s.searchUpd k).1 with
       | some j => if s.keyAt (.idx j) = k then some j else none
       | none => none) = (none : Option Nat) := by
    by_cases hlt : p < s.nodes.length
    · rw [hc.1, if_pos hlt]
      simp [habs hlt]
    · rw [hc.1, if_neg hlt]
  have hpos :
      (match updGet (s.searchUpd k).2 0 with
       | NodeRef.header => 0
       | NodeRef.idx q => q + 1) = p := by
    rw [hc.2]
    by_cases hp0 : p = 0
    · subst hp0
      simp
    · rw [if_neg hp0]
      show p - 1 + 1 = p
      omega
  have hclear := clearHdr_parts s (s.maxLevel + 1) (randomLevel f s.maxLevel)
  unfold ISL.insertVal
  simp only [hnone, hpos]
  refine ⟨trivial, ?_⟩
  rw [skel_adjOnInsert]
  split
  next hgrow =>
    simp only [skel, insAt_map, hclear.1, hclear.2.1, MNode.mk0, nodeSkel, if_pos hgrow]
  next hgrow =>
    simp only [skel, insAt_map, MNode.mk0, nodeSkel, if_neg hgrow]


/-! ### Sortedness -/

/-- The level-0 chain is strictly sorted by key (invariant 1 of the spec;
established by construction from the empty list). -/
def sortedISL (s : ISL) : Prop :=
  List.Chain' (· < ·) (s.nodes.map (fun n => n.key))

theorem keyAt_of_lt {s : ISL} {j : Nat} (hj : j < s.nodes.length) :
    s.keyAt (.idx j) = (s.nodes[j]).key := by
  simp [ISL.keyAt, ISL.node?, List.getElem?_eq_getElem hj]

theorem sorted_keys_lt {s : ISL} (hs : sortedISL s) {i j : Nat} (hij : i < j)
    (hj : j < s.nodes.length) : s.keyAt (.idx i) < s.keyAt (.idx j) := by
  unfold sortedISL at hs
  rw [List.chain'_iff_pairwise] at hs
  have hi : i < s.nodes.length := by omega
  have := List.pairwise_iff_getElem.mp hs i j (by simpa using hi) (by simpa using hj) hij
  simp only [List.getElem_map] at this
  rw [keyAt_of_lt hi, keyAt_of_lt hj]
  exact this

theorem sorted_splitG {s : ISL} (hs : sortedISL s) (k : Int) :
    ∃ p, p ≤ s.nodes.length ∧ splitG s k p ∧
      (∀ j, p < j → j < s.nodes.length → k < s.keyAt (.idx j)) ∧
      (p < s.nodes.length → s.keyAt (.idx p) = k ∨ k < s.keyAt (.idx p)) := by
  cases hf : s.nodes.findIdx? (fun n => decide (k ≤ n.key)) with
  | some p =>
    rw [List.findIdx?_eq_some_iff_getElem] at hf
    obtain ⟨hp, hpk, hbelow⟩ := hf
    have hpk' : k ≤ s.keyAt (.idx p) := by
      rw [keyAt_of_lt hp]
      simpa using hpk
    have hb : ∀ j, j < p → s.keyAt (.idx j) < k := by
      intro j hj
      have := hbelow j hj
      rw [keyAt_of_lt (by omega)]
      simpa using this
    refine ⟨p, by omega, ⟨by omega, hb, ?_⟩, ?_, ?_⟩
    · intro j hpj hjl
      rcases Nat.eq_or_lt_of_le hpj with rfl | hlt
      · exact hpk'
      · exact le_of_lt (lt_of_le_of_lt hpk' (sorted_keys_lt hs hlt hjl))
    · intro j hpj hjl
      exact lt_of_le_of_lt hpk' (sorted_keys_lt hs hpj hjl)
    · intro _
      rcases eq_or_lt_of_le hpk' with h | h
      · exact Or.inl h.symm
      · exact Or.inr h
  | none =>
    rw [List.findIdx?_eq_none_iff] at hf
    have hb : ∀ j, j < s.nodes.length → s.keyAt (.idx j) < k := by
      intro j hj
      have := hf (s.nodes[j]) (List.getElem_mem hj)
      rw [keyAt_of_lt hj]
      simpa using this
    exact ⟨s.nodes.length, le_refl _, ⟨le_refl _, fun j hj => hb j hj, fun j h1 h2 => by omega⟩,
      fun j h1 h2 => by omega, fun h => by omega⟩

/-! ### Zero-step staircases -/

theorem deref_setVal (c : Container) (id : Nat) (I : Iv) :
    (c.setVal id I).deref id = I := by
  simp [Container.setVal, Container.deref, List.lookup]

theorem pmAsc_stop {s : ISL} {I : Iv} {ih x i : Nat} (fuel : Nat)
    (h : ∀ j, s.fwd (.idx x) i = some j →
      I.containsI (s.keyAt (.idx x)) (s.keyAt (.idx j)) = false) :
    pmAsc I ih (fuel+1) s x i = some (s, x, i) := by
  unfold pmAsc
  cases hfw : s.fwd (.idx x) i with
  | none => rfl
  | some j => simp [h j hfw]

theorem pmDesc_stop {s : ISL} {I : Iv} {ih x i : Nat} {rKey : Int} (fuel : Nat)
    (h : s.keyAt (.idx x) = rKey) :
    pmDesc I ih rKey (fuel+1) s x i = some s := by
  unfold pmDesc
  simp [h]

theorem rmAsc_stop {s : ISL} {I : Iv} {x i : Nat} {res : Option Nat} (fuel : Nat)
    (h : ∀ j, s.fwd (.idx x) i = some j →
      I.containsI (s.keyAt (.idx x)) (s.keyAt (.idx j)) = false) :
    rmAsc I (fuel+1) s x i res = some (s, x, i, res) := by
  unfold rmAsc
  cases hfw : s.fwd (.idx x) i with
  | none => rfl
  | some j => simp [h j hfw]

theorem rmDesc_stop {s : ISL} {I : Iv} {x i : Nat} {res : Option Nat} (fuel : Nat)
    (h : s.keyAt (.idx x) = I.sup) :
    rmDesc I (fuel+1) s x i res = some (s, res) := by
  unfold rmDesc
  simp [h]


/-- On a zero-length interval the ascending staircase guard is false at
the very first test. -/
theorem zeroGuard {s' s : ISL} {k : Int} {p : Nat}
    (htwr : twr s' = twr s)
    (_hlt : p < s.nodes.length) (hkey : s.keyAt (.idx p) = k)
    (hnext : p + 1 < s.nodes.length → k < s.keyAt (.idx (p+1))) :
    ∀ j, s'.fwd (.idx p) 0 = some j →
      (Iv.mk k k).containsI (s'.keyAt (.idx p)) (s'.keyAt (.idx j)) = false := by
  intro j hj
  rw [fwd_eq_of_twr htwr, fwd0_char] at hj
  simp only [posN] at hj
  by_cases hq : p + 1 < s.nodes.length
  · rw [if_pos hq] at hj
    have hji : j = p + 1 := by
      simpa using hj.symm
    subst hji
    rw [keyAt_eq_of_twr htwr, keyAt_eq_of_twr htwr, hkey]
    have hk2 := hnext hq
    simp only [Iv.containsI]
    simp
    omega
  · rw [if_neg hq] at hj
    simp at hj

/-- `placeMarkers(left, right, I)` for a zero-length interval with
`left == right`: both staircase loops exit immediately and the only
effect is the initial eq-marker insertion at the endpoint node. -/
theorem placeMarkers_zero {s : ISL} {k : Int} {p ih : Nat}
    (hlt : p < s.nodes.length) (hkey : s.keyAt (.idx p) = k)
    (hnext : p + 1 < s.nodes.length → k < s.keyAt (.idx (p+1)))
    (hd : s.cont.deref ih = ⟨k, k⟩) :
    s.placeMarkers p p ih = some (s.insEq (.idx p) ih) := by
  have hd' : s.deref ih = ⟨k, k⟩ := hd
  have hcont : (Iv.mk k k).contains (s.keyAt (.idx p)) = true := by
    simp [Iv.contains, hkey]
  have htwr : twr (s.insEq (.idx p) ih) = twr s := twr_eq_of_skel (skel_insEq ..)
  unfold ISL.placeMarkers
  rw [hd']
  simp only [hcont, if_true]
  simp only [show s.setEq (.idx p) (ilInsert ih (s.eqm (.idx p))) = s.insEq (.idx p) ih from rfl]
  rw [pmAsc_stop _ (zeroGuard htwr hlt hkey hnext)]
  dsimp only
  rw [pmDesc_stop _ rfl]

/-- `removeMarkers(left, I)` for a zero-length interval: both staircase
loops exit immediately; the result is determined by the single
`eqMarkers->remove(I, tmp)` at the endpoint node (`res == 0` on no match
fails the assert, modelled as `none`). -/
theorem removeMarkers_zero {s : ISL} {k : Int} {p : Nat}
    (hlt : p < s.nodes.length) (hkey : s.keyAt (.idx p) = k)
    (hnext : p + 1 < s.nodes.length → k < s.keyAt (.idx (p+1))) :
    s.removeMarkers p ⟨k, k⟩ =
      (match (ilRemoveVal s.cont ⟨k, k⟩ (s.eqm (.idx p))).1 with
       | some id => some (id, s.setEq (.idx p) (ilRemoveVal s.cont ⟨k, k⟩ (s.eqm (.idx p))).2)
       | none => none) := by
  have hcont : (Iv.mk k k).contains (s.keyAt (.idx p)) = true := by
    simp [Iv.contains, hkey]
  have htwr : twr (s.setEq (.idx p) (ilRemoveVal s.cont ⟨k, k⟩ (s.eqm (.idx p))).2) = twr s :=
    twr_eq_of_skel (skel_setEq ..)
  unfold ISL.removeMarkers
  simp only [hcont, if_true, rmStep]
  rw [rmAsc_stop _ (zeroGuard htwr hlt hkey hnext)]
  dsimp only
  rw [rmDesc_stop _ (by rw [keyAt_eq_of_twr htwr, hkey])]
  cases h : (ilRemoveVal s.cont ⟨k, k⟩ (s.eqm (.idx p))).1 <;> simp [h]


/-! ### Assembling `insert(const Interval&)` for a zero-length interval -/

theorem nodesLen_of_twr {s' s : ISL} (h : twr s' = twr s) :
    s'.nodes.length = s.nodes.length := by
  rw [nodesLen_twr, h, ← nodesLen_twr]

theorem splitG_of_twr {s' s : ISL} {k : Int} {p : Nat} (h : twr s' = twr s)
    (hsp : splitG s k p) : splitG s' k p := by
  obtain ⟨h1, h2, h3⟩ := hsp
  have hlen := nodesLen_of_twr h
  refine ⟨by omega, ?_, ?_⟩
  · intro j hj
    rw [keyAt_eq_of_twr h]
    exact h2 j hj
  · intro j hj1 hj2
    rw [keyAt_eq_of_twr h]
    exact h3 j hj1 (by omega)

theorem twr_eq_skelmap (s : ISL) :
    twr s = (s.nodes.map nodeSkel).map (fun u => (u.1, u.2.1)) := by
  simp [twr, skel, nodeSkel, List.map_map, Function.comp]

theorem node?_bumpOwner_self (s : ISL) (j : Nat) (d : Int) :
    (s.bumpOwner j d).node? j =
      (s.node? j).map (fun n => { n with ownerCount := n.ownerCount + d }) := by
  simp [ISL.bumpOwner, ISL.node?, modAt_getElem?_self]

theorem node?_setEq_self (s : ISL) (p : Nat) (l : List Nat) :
    (s.setEq (.idx p) l).node? p =
      (s.node? p).map (fun n => { n with eqMarkers := l }) := by
  simp [ISL.setEq, ISL.node?, modAt_getElem?_self]

theorem ownerAtKey_result {s2 : ISL} {k : Int} {p : Nat} {n2 : MNode} {ih0 : Nat}
    (hn2 : s2.node? p = some n2) (hkey2 : n2.key = k)
    (hbelow : ∀ j, j < p → s2.keyAt (.idx j) ≠ k) :
    (((s2.bumpOwner p 1).bumpOwner p 1).insEq (.idx p) ih0).ownerAtKey k =
      n2.ownerCount + 2 := by
  have htwr : twr (((s2.bumpOwner p 1).bumpOwner p 1).insEq (.idx p) ih0) = twr s2 := by
    rw [twr_eq_of_skel (skel_insEq ..), twr_bumpOwner, twr_bumpOwner]
  have hnode :
      (((s2.bumpOwner p 1).bumpOwner p 1).insEq (.idx p) ih0).node? p =
        some { n2 with
                 ownerCount := n2.ownerCount + 1 + 1,
                 eqMarkers := ilInsert ih0 (((s2.bumpOwner p 1).bumpOwner p 1).eqm (.idx p)) } := by
    show (((s2.bumpOwner p 1).bumpOwner p 1).setEq (.idx p) _).node? p = _
    rw [node?_setEq_self, node?_bumpOwner_self, node?_bumpOwner_self, hn2]
    rfl
  rw [ownerAtKey_at hnode (by simpa using hkey2) ?_]
  · show n2.ownerCount + 1 + 1 = n2.ownerCount + 2
    omega
  · intro j hj
    rw [keyAt_eq_of_twr htwr]
    exact hbelow j hj

theorem insertIv_tail {s2 : ISL} {k : Int} {p ih0 : Nat} (f2 : List Bool)
    (hsp2 : splitG s2 k p) (hlt2 : p < s2.nodes.length)
    (hkey2 : s2.keyAt (.idx p) = k)
    (hnext2 : p + 1 < s2.nodes.length → k < s2.keyAt (.idx (p+1)))
    (hd2 : s2.cont.deref ih0 = ⟨k, k⟩) :
    (let r2 := s2.insertVal k f2
     let s3 := r2.1
     let right := r2.2.1
     let left' := if r2.2.2 ∧ right ≤ p then p + 1 else p
     let s4 := (s3.bumpOwner left' 1).bumpOwner right 1
     s4.placeMarkers left' right ih0) =
      some (((s2.bumpOwner p 1).bumpOwner p 1).insEq (.idx p) ih0) := by
  have hfound := insertVal_found hsp2 hlt2 hkey2 f2
  simp only [hfound]
  have hcond : ¬ ((false = true) ∧ p ≤ p) := by simp
  rw [if_neg hcond]
  have htwr4 : twr ((s2.bumpOwner p 1).bumpOwner p 1) = twr s2 := by
    rw [twr_bumpOwner, twr_bumpOwner]
  have h1 : p < ((s2.bumpOwner p 1).bumpOwner p 1).nodes.length := by
    rw [nodesLen_of_twr htwr4]
    exact hlt2
  have h2 : ((s2.bumpOwner p 1).bumpOwner p 1).keyAt (.idx p) = k := by
    rw [keyAt_eq_of_twr htwr4]
    exact hkey2
  have h3 : p + 1 < ((s2.bumpOwner p 1).bumpOwner p 1).nodes.length →
      k < ((s2.bumpOwner p 1).bumpOwner p 1).keyAt (.idx (p+1)) := by
    intro h
    rw [keyAt_eq_of_twr htwr4]
    refine hnext2 ?_
    rw [nodesLen_of_twr htwr4] at h
    exact h
  exact placeMarkers_zero h1 h2 h3 hd2


theorem insertIv_zero_exists {s : ISL} {k : Int} (f1 f2 : List Bool) (hs : sortedISL s) :
    ∃ s', s.insertIv ⟨k, k⟩ f1 f2 = some s' ∧ s'.ownerAtKey k = s.ownerAtKey k + 2 := by
  obtain ⟨p, hple, hsp, hstrict, hdich⟩ := sorted_splitG hs k
  have hbelow : ∀ j, j < p → s.keyAt (.idx j) ≠ k := fun j hj => ne_of_lt (hsp.2.1 j hj)
  by_cases hpres : p < s.nodes.length ∧ s.keyAt (.idx p) = k
  case pos =>
    obtain ⟨hlt, hkey⟩ := hpres
    -- the state after the handle allocation and write
    have hs1 : ∀ c : Container, splitG ({ s with cont := c } : ISL) k p := fun c => hsp
    have hn : s.node? p = some (s.nodes[p]) := List.getElem?_eq_getElem hlt
    have hkeyn : (s.nodes[p]).key = k := by
      rw [← keyAt_of_lt hlt]
      exact hkey
    refine ⟨(((({ s with cont := (s.cont.getNew).1.setVal (s.cont.getNew).2 ⟨k, k⟩ } : ISL).bumpOwner p 1).bumpOwner p 1)).insEq
        (.idx p) (s.cont.getNew).2, ?_, ?_⟩
    · have hfound1 :
          ({ s with cont := (s.cont.getNew).1.setVal (s.cont.getNew).2 ⟨k, k⟩ } : ISL).insertVal k f1 =
            (({ s with cont := (s.cont.getNew).1.setVal (s.cont.getNew).2 ⟨k, k⟩ } : ISL), p, false) :=
        insertVal_found (hs1 ((s.cont.getNew).1.setVal (s.cont.getNew).2 ⟨k, k⟩)) hlt hkey f1
      simp only [ISL.insertIv, hfound1]
      exact insertIv_tail f2 (hs1 _) hlt hkey
        (fun h => by
          have := sorted_keys_lt hs (Nat.lt_succ_self p) h
          rw [hkey] at this
          exact this)
        (deref_setVal _ _ _)
    · have hn' : ({ s with cont := (s.cont.getNew).1.setVal (s.cont.getNew).2 ⟨k, k⟩ } : ISL).node? p =
          some (s.nodes[p]) := hn
      rw [ownerAtKey_result hn' hkeyn hbelow]
      rw [ownerAtKey_at hn hkeyn hbelow]
  case neg =>
    have habs : p < s.nodes.length → ¬ (s.keyAt (.idx p) = k) := by
      intro hlt hk
      exact hpres ⟨hlt, hk⟩
    have hs1 : ∀ c : Container, splitG ({ s with cont := c } : ISL) k p := fun c => hsp
    have hnew := insertVal_new (s := { s with cont := (s.cont.getNew).1.setVal (s.cont.getNew).2 ⟨k, k⟩ })
      (hs1 _) habs f1
    set s2' := (({ s with cont := (s.cont.getNew).1.setVal (s.cont.getNew).2 ⟨k, k⟩ } : ISL).insertVal k f1).1 with hs2def
    have hmap : s2'.nodes.map nodeSkel =
        insAt (s.nodes.map nodeSkel) p (k, randomLevel f1 s.maxLevel, 0) :=
      congrArg Prod.fst hnew.2
    have hcont2 : s2'.cont = (s.cont.getNew).1.setVal (s.cont.getNew).2 ⟨k, k⟩ :=
      congrArg (fun t => t.2.2) hnew.2
    have htwr2 : twr s2' = insAt (twr s) p (k, randomLevel f1 s.maxLevel) := by
      rw [twr_eq_skelmap, hmap, insAt_map]
      rw [show ((List.map nodeSkel s.nodes).map (fun u => (u.1, u.2.1))) = twr s from
        (twr_eq_skelmap s).symm]
    have hplew : p ≤ (twr s).length := by
      rw [← nodesLen_twr]
      exact hple
    have hlen2 : s2'.nodes.length = s.nodes.length + 1 := by
      rw [nodesLen_twr, htwr2, insAt_length _ _ _ hplew, ← nodesLen_twr]
    have key2p : s2'.keyAt (.idx p) = k := by
      rw [keyAt_twr, htwr2, insAt_getElem?_self _ _ _ hplew]
    have key2lt : ∀ j, j < p → s2'.keyAt (.idx j) = s.keyAt (.idx j) := by
      intro j hj
      rw [keyAt_twr, htwr2, insAt_getElem?_lt _ _ _ _ hplew hj, ← keyAt_twr]
    have key2gt : ∀ j, p < j → s2'.keyAt (.idx j) = s.keyAt (.idx (j-1)) := by
      intro j hj
      rw [keyAt_twr, htwr2, insAt_getElem?_gt _ _ _ _ hj, ← keyAt_twr]
    have hkgtp : p < s.nodes.length → k < s.keyAt (.idx p) := by
      intro hlt
      rcases hdich hlt with h | h
      · exact absurd h (habs hlt)
      · exact h
    have hsp2 : splitG s2' k p := by
      refine ⟨by omega, ?_, ?_⟩
      · intro j hj
        rw [key2lt j hj]
        exact hsp.2.1 j hj
      · intro j hj1 hj2
        rcases Nat.eq_or_lt_of_le hj1 with rfl | hlt2
        · rw [key2p]
        · rw [key2gt j hlt2]
          rw [hlen2] at hj2
          rcases Nat.eq_or_lt_of_le (Nat.succ_le_of_lt hlt2) with hje | hjgt
          · have hj1e : j - 1 = p := by omega
            rw [hj1e]
            exact le_of_lt (hkgtp (by omega))
          · exact le_of_lt (hstrict (j-1) (by omega) (by omega))
    have hnext2 : p + 1 < s2'.nodes.length → k < s2'.keyAt (.idx (p+1)) := by
      intro h
      rw [key2gt (p+1) (Nat.lt_succ_self p)]
      simp only [Nat.add_sub_cancel]
      rw [hlen2] at h
      exact hkgtp (by omega)
    have hd2 : s2'.cont.deref (s.cont.getNew).2 = ⟨k, k⟩ := by
      rw [hcont2]
      exact deref_setVal _ _ _
    -- the node created at position p
    have hmapp : (s2'.nodes.map nodeSkel)[p]? = some (k, randomLevel f1 s.maxLevel, 0) := by
      rw [hmap]
      exact insAt_getElem?_self _ _ _ (by simpa using hple)
    rw [List.getElem?_map] at hmapp
    obtain ⟨n2, hn2, hn2s⟩ := Option.map_eq_some'.mp hmapp
    have hn2key : n2.key = k := congrArg (fun t => t.1) hn2s
    have hn2own : n2.ownerCount = 0 := congrArg (fun t => t.2.2) hn2s
    have hbelow2 : ∀ j, j < p → s2'.keyAt (.idx j) ≠ k := by
      intro j hj
      rw [key2lt j hj]
      exact hbelow j hj
    refine ⟨((s2'.bumpOwner p 1).bumpOwner p 1).insEq (.idx p) (s.cont.getNew).2, ?_, ?_⟩
    · simp only [ISL.insertIv, hs2def, hnew.1]
      exact insertIv_tail f2 hsp2
        (by
          have hl := hlen2
          rw [hs2def] at hl
          omega)
        key2p hnext2 hd2
    · rw [ownerAtKey_result hn2 hn2key hbelow2, hn2own]
      rw [ownerAtKey_absent ?_]
      intro j hj
      rcases Nat.lt_trichotomy j p with h | rfl | h
      · exact hbelow j h
      · exact habs hj
      · exact ne_of_gt (hstrict j h hj)


/-! ### The read-only operations do not touch the state -/

theorem fiGo_fst (k : Int) (s : ISL) :
    ∀ (n : Nat) (x : NodeRef) (out : List Iv), (fiGo k n s x out).1 = s := by
  intro n
  induction n with
  | zero => intro x out; rfl
  | succ n ih =>
    intro x out
    unfold fiGo
    split
    · rfl
    · exact ih _ _

theorem icGo_fst (k : Int) (s : ISL) :
    ∀ (n : Nat) (x : NodeRef), (icGo k n s x).1 = s := by
  intro n
  induction n with
  | zero => intro x; rfl
  | succ n ih =>
    intro x
    unfold icGo
    split
    · rfl
    · dsimp only
      split
      · rfl
      · exact ih _

theorem spGo_fst (k : Int) (s : ISL) :
    ∀ (n : Nat) (x : NodeRef), (spGo k n s x).1 = s := by
  intro n
  induction n with
  | zero => intro x; rfl
  | succ n ih => intro x; exact ih _

/-! ### The claims -/

/-- C1: after the sequence `cexC1` the interval `[2,6]` is still stored
(once) and contains the query value 4, yet `find_intervals(4)` emits it
zero times — the query's output is not the multiset of stored intervals
containing the query value. -/
theorem find_intervals_misses_stored_cex :
    (exec cexC1).map (fun s =>
      (countV s.storedVals ⟨2, 6⟩, (Iv.mk 2 6).contains 4,
       countV (s.findIntervals 4) ⟨2, 6⟩))
      = some (1, true, 0) := by decide

/-- C2: after `cexC1`, the level-0 edge out of node 1 runs from key 3 to
key 5, the stored interval `[2,6]` contains `[3,5]`, node 1 has no higher
outgoing edge (its `topLevel` is 0), and yet `[2,6]` is not among the
markers of that edge: the marker invariant fails. -/
theorem marker_invariant_violated_cex :
    ((exec cexC1).map (fun s =>
      (s.keyAt (.idx 1), s.fwd (.idx 1) 0, s.keyAt (.idx 2),
       (s.nodes.map (fun n => n.topLevel))[1]?)) = some (3, some 2, 5, some 0)) ∧
    ((exec cexC1).map (fun s =>
      (countV s.storedVals ⟨2, 6⟩, (Iv.mk 2 6).containsI 3 5,
       countV (s.mksVals 1 0) ⟨2, 6⟩)) = some (1, true, 0)) := by decide

/-- C3: after inserting `[1,5]` alone, `is_contained(3)` returns `true`
although no node with key 3 exists and no stored interval has 3 as an
endpoint (both of the function's non-header branches return `true` in the
source, so it answers stabbing, not endpoint existence). -/
theorem is_contained_without_endpoint_cex :
    (exec [Op.ins ⟨1, 5⟩ [] []]).map (fun s =>
      (s.isContained 3, s.hasKey 3, s.incid 3))
      = some (true, false, 0) := by decide

set_option maxRecDepth 40000 in
/-- C4: the source caps `randomLevel()` at `maxLevel + 1` but never at
`MAX_FORWARD - 1 = 47`: 48 inserts whose flips come up heads 1, 2, ..., 48
times drive `maxLevel` to 48 and create a node with `topLevel = 48`,
outside the claimed range `[0, 47]`. -/
theorem toplevel_exceeds_max_cex :
    (exec growOps2).map (fun s =>
      (s.maxLevel, s.nodes.any (fun n => n.topLevel = 48)))
      = some (48, true) := by decide

/-- C5: with only `[1,5]` stored, `remove([1,3])` does not return `false`
without mutation: the left endpoint 1 is found, markers are removed and
the owner count decremented, and the search for the absent right endpoint
3 leaves the `assert(*res == I)` path to fail — the model returns `none`
(a crash), not `some (false, s)`. -/
theorem remove_absent_crashes_cex :
    (exec [Op.ins ⟨1, 5⟩ [] []]).map (fun s => s.removeIv ⟨1, 3⟩)
      = some none := by decide

/-- C6: after `cexC1`, node 2 has key 5; the stored interval `[2,6]`
contains 5 but is absent from the node's `eqMarkers`, while `[10,20]`
does not contain 5 yet appears there (through a re-used slot read by a
stale handle): the eq-marker invariant fails in both directions. -/
theorem eq_marker_invariant_violated_cex :
    ((exec cexC1).map (fun s =>
      (s.keyAt (.idx 2), countV s.storedVals ⟨2, 6⟩, (Iv.mk 2 6).contains 5,
       countV (s.eqVals 2) ⟨2, 6⟩)) = some (5, 1, true, 0)) ∧
    ((exec cexC1).map (fun s =>
      (countV s.storedVals ⟨10, 20⟩, (Iv.mk 10 20).contains 5,
       countV (s.eqVals 2) ⟨10, 20⟩)) = some (1, false, 1)) := by decide

/-- C7: after the sequence `cexC7` the zero-length interval `[4,4]` is
still stored (so the value 4 has two endpoint incidences), yet no node
with key 4 exists in the list: a stored interval's endpoint node is gone
while its interval remains, against the ownership accounting. -/
theorem node_accounting_violated_cex :
    (exec cexC7).map (fun s =>
      (countV s.storedVals ⟨4, 4⟩, s.incid 4, s.hasKey 4))
      = some (1, 2, false) := by decide

/-- C8: after the first seven operations of `cexC7` the store holds 3
intervals; `remove([4,4])` then returns `true` yet `size()` stays 3 — a
successful remove that does not decrease the size by one (the handle it
releases was already in the free pool). -/
theorem size_law_violated_cex :
    (exec (cexC7.take 7)).map (fun s =>
      (s.cont.size, (s.removeIv ⟨4, 4⟩).map (fun p => (p.1, p.2.cont.size))))
      = some (3, some (true, 3)) := by decide

/-- C9: for a zero-length interval `[k,k]` on a strictly sorted state,
`insert` terminates and the two endpoint insertions hit one node, whose
`ownerCount` rises by exactly 2; and with `left = right` the ascending and
descending staircase loops of `placeMarkers` and `removeMarkers` take zero
steps: `placeMarkers` only adds the interval's eq-marker on that node, and
`removeMarkers` only removes the interval from that node's eq-marker list
(returning `none` exactly when `removeMarkers` cannot find the interval
there, the `assert` failure). -/
theorem zero_length_insert_remove_zero_staircase (s : ISL) (k : Int)
    (f1 f2 : List Bool) (hs : sortedISL s) :
    (∃ s', s.insertIv ⟨k, k⟩ f1 f2 = some s' ∧
       s'.ownerAtKey k = s.ownerAtKey k + 2) ∧
    (∀ p ih, p < s.nodes.length → s.keyAt (.idx p) = k →
       s.cont.deref ih = ⟨k, k⟩ →
       s.placeMarkers p p ih = some (s.insEq (.idx p) ih) ∧
       s.removeMarkers p ⟨k, k⟩ =
         (match (ilRemoveVal s.cont ⟨k, k⟩ (s.eqm (.idx p))).1 with
          | some id =>
            some (id, s.setEq (.idx p) (ilRemoveVal s.cont ⟨k, k⟩ (s.eqm (.idx p))).2)
          | none => none)) := by
  refine ⟨insertIv_zero_exists f1 f2 hs, ?_⟩
  intro p ih hlt hkey hd
  have hnext : p + 1 < s.nodes.length → k < s.keyAt (.idx (p + 1)) := by
    intro h
    have h2 := sorted_keys_lt hs (Nat.lt_succ_self p) h
    rw [hkey] at h2
    exact h2
  exact ⟨placeMarkers_zero hlt hkey hnext hd, removeMarkers_zero hlt hkey hnext⟩

/-- Witness for C9 at the one-node index `W9` and the zero-length interval
`[3,3]`. -/
theorem zero_length_insert_witness :
    sortedISL W9 ∧
    (∃ s', W9.insertIv ⟨3, 3⟩ [] [] = some s' ∧
       s'.ownerAtKey 3 = W9.ownerAtKey 3 + 2) := by
  have hW : sortedISL W9 := by
    unfold sortedISL
    rw [show W9.nodes.map (fun n => n.key) = [3] from by decide]
    simp
  exact ⟨hW, (zero_length_insert_remove_zero_staircase W9 3 [] [] hW).1⟩

/-- C10: the read-only operations `find_intervals`, `is_contained` and the
public `search` leave the whole index state — nodes, forward structure,
marker and eq-marker lists, owner counts, `maxLevel` and the element
store — unchanged: each state-threaded query returns its input state. -/
theorem read_only_queries_frame (s : ISL) (q : Int) :
    (s.findIntervalsST q).1 = s ∧ (s.isContainedST q).1 = s ∧
    (s.searchPubST q).1 = s := by
  refine ⟨fiGo_fst q s _ _ _, icGo_fst q s _ _, ?_⟩
  have h := spGo_fst q s (s.maxLevel + 1) NodeRef.header
  unfold ISL.searchPubST
  dsimp only
  rw [h]
  rcases hX : s.fwd (spGo q (s.maxLevel + 1) s NodeRef.header).2 0 with _ | j
  · rfl
  · dsimp only
    split
    · rfl
    · rfl

end ISkip
